import Mathlib

/-!
Verification of the OpenAPI type-generation pipeline: the change-detection
hash, the enum hoisting transform, the source fallback order, the pipeline
write behavior, and the re-export flattener, modelled as a shallow
embedding of the generator source.
-/

/-- JSON value tree, the shape of a parsed OpenAPI schema document. Objects
keep their entries as insertion-ordered association lists, as JS objects do. -/
inductive Json where
  | str : String → Json
  | num : Int → Json
  | bool : Bool → Json
  | null : Json
  | arr : List Json → Json
  | obj : List (String × Json) → Json

mutual

def jsonBEq : Json → Json → Bool
  | .str a, .str b => a == b
  | .num a, .num b => a == b
  | .bool a, .bool b => a == b
  | .null, .null => true
  | .arr xs, .arr ys => jsonListBEq xs ys
  | .obj xs, .obj ys => jsonPairsBEq xs ys
  | _, _ => false

def jsonListBEq : List Json → List Json → Bool
  | [], [] => true
  | x :: xs, y :: ys => jsonBEq x y && jsonListBEq xs ys
  | _, _ => false

def jsonPairsBEq : List (String × Json) → List (String × Json) → Bool
  | [], [] => true
  | (k, v) :: xs, (k2, v2) :: ys => k == k2 && jsonBEq v v2 && jsonPairsBEq xs ys
  | _, _ => false

end

mutual

theorem jsonBEq_iff : ∀ a b, jsonBEq a b = true ↔ a = b
  | .str a, b => by cases b <;> simp [jsonBEq]
  | .num a, b => by cases b <;> simp [jsonBEq]
  | .bool a, b => by cases b <;> simp [jsonBEq]
  | .null, b => by cases b <;> simp [jsonBEq]
  | .arr xs, b => by
      cases b <;> simp [jsonBEq]
      exact jsonListBEq_iff xs _
  | .obj xs, b => by
      cases b <;> simp [jsonBEq]
      exact jsonPairsBEq_iff xs _

theorem jsonListBEq_iff : ∀ xs ys, jsonListBEq xs ys = true ↔ xs = ys
  | [], ys => by cases ys <;> simp [jsonListBEq]
  | x :: xs, ys => by
      cases ys with
      | nil => simp [jsonListBEq]
      | cons y t =>
          have h1 := jsonBEq_iff x y
          have h2 := jsonListBEq_iff xs t
          simp [jsonListBEq, h1, h2]

theorem jsonPairsBEq_iff : ∀ xs ys, jsonPairsBEq xs ys = true ↔ xs = ys
  | [], ys => by cases ys <;> simp [jsonPairsBEq]
  | (k, v) :: xs, ys => by
      cases ys with
      | nil => simp [jsonPairsBEq]
      | cons p t =>
          obtain ⟨k2, v2⟩ := p
          have h1 := jsonBEq_iff v v2
          have h2 := jsonPairsBEq_iff xs t
          simp [jsonPairsBEq, h1, h2]

end

instance : DecidableEq Json := fun a b => decidable_of_iff _ (jsonBEq_iff a b)

/-- Sorting by a key, as done to object keys during canonicalization and to
argument tokens by their argv index. -/
def sortByKey {α : Type} {β : Type} [LinearOrder β] (k : α → β) (l : List α) : List α :=
  List.insertionSort (fun a b => k a ≤ k b) l

theorem sortByKey_perm {α β : Type} [LinearOrder β] (k : α → β) (l : List α) :
    (sortByKey k l).Perm l :=
  List.perm_insertionSort _ l

theorem sortByKey_sorted {α β : Type} [LinearOrder β] (k : α → β) (l : List α) :
    List.Sorted (fun a b => k a ≤ k b) (sortByKey k l) := by
  have : IsTotal α (fun a b => k a ≤ k b) := ⟨fun a b => le_total (k a) (k b)⟩
  have : IsTrans α (fun a b => k a ≤ k b) := ⟨fun a b c h1 h2 => le_trans h1 h2⟩
  exact List.sorted_insertionSort _ l

theorem sorted_strict_of_nodup {α β : Type} [LinearOrder β] (k : α → β) (l : List α)
    (hs : List.Sorted (fun a b => k a ≤ k b) l) (hnd : (l.map k).Nodup) :
    List.Sorted (fun a b => k a < k b) l := by
  have hne : l.Pairwise (fun a b => k a ≠ k b) := List.pairwise_map.mp hnd
  exact (hs.and hne).imp (fun h => lt_of_le_of_ne h.1 h.2)

/-- Two lists that are permutations of each other with no duplicate keys
sort to the same list. -/
theorem sortByKey_eq_of_perm {α β : Type} [LinearOrder β] (k : α → β) (l1 l2 : List α)
    (hp : l1.Perm l2) (hnd : (l1.map k).Nodup) :
    sortByKey k l1 = sortByKey k l2 := by
  have hperm : (sortByKey k l1).Perm (sortByKey k l2) :=
    ((sortByKey_perm k l1).trans hp).trans (sortByKey_perm k l2).symm
  have hnd1 : ((sortByKey k l1).map k).Nodup :=
    ((sortByKey_perm k l1).map k).symm.nodup hnd
  have hnd2 : ((sortByKey k l2).map k).Nodup := (hperm.map k).nodup hnd1
  have hs1 := sorted_strict_of_nodup k _ (sortByKey_sorted k l1) hnd1
  have hs2 := sorted_strict_of_nodup k _ (sortByKey_sorted k l2) hnd2
  have : IsAntisymm α (fun a b => k a < k b) :=
    ⟨fun a b h1 h2 => absurd h1 (not_lt.mpr (le_of_lt h2))⟩
  exact List.eq_of_perm_of_sorted hperm hs1 hs2

/-- Sorting a list whose keys are already strictly increasing is the identity;
this is how a stable comparator sort behaves on tokens already in argv order. -/
theorem sortByKey_eq_self {α β : Type} [LinearOrder β] (k : α → β) (l : List α)
    (hs : List.Sorted (fun a b => k a < k b) l) :
    sortByKey k l = l := by
  have : IsAntisymm α (fun a b => k a < k b) :=
    ⟨fun a b h1 h2 => absurd h1 (not_lt.mpr (le_of_lt h2))⟩
  have hnd : ((sortByKey k l).map k).Nodup := by
    have hnd0 : (l.map k).Nodup := by
      have := List.pairwise_map.mpr (hs.imp (fun h => ne_of_lt h))
      exact this
    exact ((sortByKey_perm k l).map k).symm.nodup hnd0
  exact List.eq_of_perm_of_sorted (sortByKey_perm k l)
    (sorted_strict_of_nodup k _ (sortByKey_sorted k l) hnd) hs


mutual

/-- Canonical form of a JSON value: object keys sorted, applied recursively. -/
def canonV : Json → Json
  | .str s => .str s
  | .num n => .num n
  | .bool b => .bool b
  | .null => .null
  | .arr xs => .arr (canonList xs)
  | .obj kvs => .obj (sortByKey Prod.fst (canonPairs kvs))

def canonList : List Json → List Json
  | [] => []
  | x :: xs => canonV x :: canonList xs

def canonPairs : List (String × Json) → List (String × Json)
  | [] => []
  | (k, v) :: t => (k, canonV v) :: canonPairs t

end


theorem canonList_eq_map (xs : List Json) : canonList xs = xs.map canonV := by
  induction xs with
  | nil => simp [canonList]
  | cons x t ih => simp [canonList, ih]

theorem canonPairs_eq_map (l : List (String × Json)) :
    canonPairs l = l.map (fun p => (p.1, canonV p.2)) := by
  induction l with
  | nil => simp [canonPairs]
  | cons p t ih => obtain ⟨k, v⟩ := p; simp [canonPairs, ih]

theorem canonPairs_keys (l : List (String × Json)) :
    (canonPairs l).map Prod.fst = l.map Prod.fst := by
  induction l with
  | nil => simp [canonPairs]
  | cons p t ih => obtain ⟨k, v⟩ := p; simp [canonPairs, ih]

/-- Two JSON documents are the same up to reordering of map keys: equal
scalars, pointwise-related arrays, and objects whose entry lists match
pointwise (same keys, related values) up to a permutation. -/
inductive KeyReorder : Json → Json → Prop where
  | str (s : String) : KeyReorder (.str s) (.str s)
  | num (n : Int) : KeyReorder (.num n) (.num n)
  | bool (b : Bool) : KeyReorder (.bool b) (.bool b)
  | null : KeyReorder .null .null
  | arr {xs ys : List Json} : List.Forall₂ KeyReorder xs ys →
      KeyReorder (.arr xs) (.arr ys)
  | obj {l m m2 : List (String × Json)} :
      l.map Prod.fst = m.map Prod.fst →
      List.Forall₂ KeyReorder (l.map Prod.snd) (m.map Prod.snd) →
      m.Perm m2 →
      KeyReorder (.obj l) (.obj m2)

/-- A well-formed JSON document: every object, at any depth, has no
duplicate keys (true of anything produced by a JSON parser). -/
inductive WfJson : Json → Prop where
  | str (s : String) : WfJson (.str s)
  | num (n : Int) : WfJson (.num n)
  | bool (b : Bool) : WfJson (.bool b)
  | null : WfJson .null
  | arr {xs : List Json} : (∀ x ∈ xs, WfJson x) → WfJson (.arr xs)
  | obj {l : List (String × Json)} : (l.map Prod.fst).Nodup →
      (∀ p ∈ l, WfJson p.2) → WfJson (.obj l)

theorem mapCanon_eq_of_forall2 (xs ys : List Json)
    (hf : List.Forall₂ KeyReorder xs ys)
    (hrec : ∀ x ∈ xs, ∀ y, KeyReorder x y → canonV x = canonV y) :
    xs.map canonV = ys.map canonV := by
  induction hf with
  | nil => rfl
  | cons h t ih =>
      simp only [List.map_cons, List.cons.injEq]
      constructor
      · exact hrec _ (by simp) _ h
      · exact ih (fun x hx y hy => hrec x (by simp [hx]) y hy)

theorem canonPairs_eq_of_forall2 (l m : List (String × Json))
    (hkeys : l.map Prod.fst = m.map Prod.fst)
    (hvals : List.Forall₂ KeyReorder (l.map Prod.snd) (m.map Prod.snd))
    (hrec : ∀ p ∈ l, ∀ y, KeyReorder p.2 y → canonV p.2 = canonV y) :
    canonPairs l = canonPairs m := by
  induction l generalizing m with
  | nil =>
      cases m with
      | nil => rfl
      | cons q s => simp at hkeys
  | cons p t ihl =>
      cases m with
      | nil => simp at hkeys
      | cons q s =>
          obtain ⟨k, v⟩ := p
          obtain ⟨k2, v2⟩ := q
          simp only [List.map_cons] at hkeys hvals
          cases hvals with
          | cons hv hrest =>
              simp only [List.cons.injEq] at hkeys
              simp only [canonPairs, List.cons.injEq, Prod.mk.injEq]
              refine ⟨⟨hkeys.1, hrec (k, v) (by simp) v2 hv⟩, ?_⟩
              exact ihl s hkeys.2 hrest
                (fun p hp y hy => hrec p (List.mem_cons_of_mem _ hp) y hy)

theorem canonV_eq_of_keyReorder_aux :
    ∀ (n : Nat) (j1 j2 : Json), sizeOf j1 ≤ n → WfJson j1 → KeyReorder j1 j2 →
      canonV j1 = canonV j2 := by
  intro n
  induction n with
  | zero =>
      intro j1 j2 hs _ _
      cases j1 <;> simp at hs
  | succ n ih =>
      intro j1 j2 hs hwf hkr
      cases hkr with
      | str s => rfl
      | num v => rfl
      | bool b => rfl
      | null => rfl
      | arr hf =>
          rename_i xs ys
          cases hwf with
          | arr hwfx =>
              simp only [canonV, Json.arr.injEq]
              rw [canonList_eq_map, canonList_eq_map]
              apply mapCanon_eq_of_forall2 _ _ hf
              intro x hx y hy
              have hlt : sizeOf x < sizeOf xs := List.sizeOf_lt_of_mem hx
              have hsz : sizeOf (Json.arr xs) = 1 + sizeOf xs := by simp
              exact ih x y (by omega) (hwfx x hx) hy
      | obj hkeys hvals hpm =>
          rename_i l m m2
          cases hwf with
          | obj hnd hwfp =>
              simp only [canonV, Json.obj.injEq]
              have hrec : ∀ p ∈ l, ∀ y, KeyReorder p.2 y → canonV p.2 = canonV y := by
                intro p hp y hy
                have hlt : sizeOf p < sizeOf l := List.sizeOf_lt_of_mem hp
                have hsz : sizeOf (Json.obj l) = 1 + sizeOf l := by simp
                have hp2 : sizeOf p.2 < sizeOf p := by
                  obtain ⟨a, b⟩ := p
                  simp
                exact ih p.2 y (by omega) (hwfp p hp) hy
              have h1 : canonPairs l = canonPairs m :=
                canonPairs_eq_of_forall2 l m hkeys hvals hrec
              have h2 : (canonPairs m).Perm (canonPairs m2) := by
                rw [canonPairs_eq_map, canonPairs_eq_map]
                exact hpm.map _
              have hperm : (canonPairs l).Perm (canonPairs m2) := h1 ▸ h2
              apply sortByKey_eq_of_perm _ _ _ hperm
              rw [canonPairs_keys]
              exact hnd

/-- Canonicalization is invariant under reordering of object keys in a
well-formed document. -/
theorem canonV_eq_of_keyReorder (j1 j2 : Json) (hwf : WfJson j1)
    (hkr : KeyReorder j1 j2) : canonV j1 = canonV j2 :=
  canonV_eq_of_keyReorder_aux (sizeOf j1) j1 j2 le_rfl hwf hkr

/-- JS object spread followed by a literal property, as in the expression
spreading the schema document and then writing typeGeneratorVersion: when the
key is already present its value is replaced in place, otherwise the new entry
is appended at the end of the insertion order. -/
def setKey (l : List (String × Json)) (k : String) (v : Json) :
    List (String × Json) :=
  if k ∈ l.map Prod.fst then
    l.map (fun p => if p.1 = k then (k, v) else p)
  else
    l ++ [(k, v)]

/-- Entries of an object with one key removed. -/
def eraseKey (l : List (String × Json)) (k : String) : List (String × Json) :=
  l.filter (fun p => p.1 != k)

theorem eraseKey_of_not_mem (l : List (String × Json)) (k : String)
    (h : ∀ p ∈ l, p.1 ≠ k) : eraseKey l k = l := by
  induction l with
  | nil => rfl
  | cons p t ih =>
      simp only [eraseKey, List.filter_cons]
      have h1 : (p.1 != k) = true := by
        simp [h p (by simp)]
      rw [if_pos h1]
      rw [eraseKey] at ih
      rw [ih (fun q hq => h q (by simp [hq]))]

theorem setKey_perm (l : List (String × Json)) (k : String) (v : Json)
    (hnd : (l.map Prod.fst).Nodup) :
    (setKey l k v).Perm ((k, v) :: eraseKey l k) := by
  induction l with
  | nil => simp [setKey, eraseKey]
  | cons p t ih =>
      obtain ⟨a, b⟩ := p
      simp only [List.map_cons, List.nodup_cons] at hnd
      by_cases hak : a = k
      · subst hak
        have hnot : ∀ q ∈ t, q.1 ≠ a := by
          intro q hq hqa
          exact hnd.1 (hqa ▸ List.mem_map_of_mem Prod.fst hq)
        have hmap : t.map (fun p => if p.1 = a then (a, v) else p) = t := by
          have : ∀ q ∈ t, (if q.1 = a then (a, v) else q) = q := by
            intro q hq
            rw [if_neg (hnot q hq)]
          calc t.map (fun p => if p.1 = a then (a, v) else p)
              = t.map id := List.map_congr_left this
            _ = t := List.map_id t
        have herase : eraseKey ((a, b) :: t) a = t := by
          simp only [eraseKey, List.filter_cons]
          have : ((a, b).1 != a) = false := by simp
          rw [if_neg (by simp [this])]
          exact eraseKey_of_not_mem t a hnot
        rw [herase]
        simp only [setKey, List.map_cons, List.mem_cons]
        rw [if_pos (by simp)]
        simp only [if_pos rfl, hmap]
        exact List.Perm.refl _
      · have hstep : setKey ((a, b) :: t) k v = (a, b) :: setKey t k v := by
          simp only [setKey, List.map_cons, List.mem_cons]
          by_cases hkt : k ∈ t.map Prod.fst
          · rw [if_pos (Or.inr hkt), if_pos hkt]
            simp [Ne.symm hak, hak]
          · rw [if_neg (by simp [hkt, Ne.symm hak]), if_neg hkt]
            simp
        rw [hstep]
        have herase : eraseKey ((a, b) :: t) k = (a, b) :: eraseKey t k := by
          simp only [eraseKey, List.filter_cons]
          rw [if_pos (by simp [hak])]
        rw [herase]
        exact ((ih hnd.2).cons _).trans (List.Perm.swap _ _ _)

theorem setKey_keys (l : List (String × Json)) (k : String) (v : Json) :
    (setKey l k v).map Prod.fst =
      if k ∈ l.map Prod.fst then l.map Prod.fst else l.map Prod.fst ++ [k] := by
  by_cases h : k ∈ l.map Prod.fst
  · rw [if_pos h]
    simp only [setKey, if_pos h, List.map_map]
    apply List.map_congr_left
    intro p hp
    by_cases hpk : p.1 = k
    · simp [hpk]
    · simp [hpk]
  · rw [if_neg h]
    simp [setKey, if_neg h]

theorem setKey_keys_nodup (l : List (String × Json)) (k : String) (v : Json)
    (hnd : (l.map Prod.fst).Nodup) : ((setKey l k v).map Prod.fst).Nodup := by
  rw [setKey_keys]
  by_cases h : k ∈ l.map Prod.fst
  · rw [if_pos h]; exact hnd
  · rw [if_neg h]
    simp [List.nodup_append, hnd, h]

theorem keyReorder_refl : ∀ (j : Json), KeyReorder j j := by
  have aux : ∀ (n : Nat) (j : Json), sizeOf j ≤ n → KeyReorder j j := by
    intro n
    induction n with
    | zero => intro j hs; cases j <;> simp at hs
    | succ n ih =>
        intro j hs
        cases j with
        | str s => exact KeyReorder.str s
        | num v => exact KeyReorder.num v
        | bool b => exact KeyReorder.bool b
        | null => exact KeyReorder.null
        | arr xs =>
            apply KeyReorder.arr
            apply List.forall₂_same.mpr
            intro x hx
            have hlt : sizeOf x < sizeOf xs := List.sizeOf_lt_of_mem hx
            have hsz : sizeOf (Json.arr xs) = 1 + sizeOf xs := by simp
            exact ih x (by omega)
        | obj l =>
            apply KeyReorder.obj rfl _ (List.Perm.refl l)
            apply List.forall₂_same.mpr
            intro x hx
            obtain ⟨p, hp, hpx⟩ := List.mem_map.mp hx
            have hlt : sizeOf p < sizeOf l := List.sizeOf_lt_of_mem hp
            have hsz : sizeOf (Json.obj l) = 1 + sizeOf l := by simp
            have hp2 : sizeOf p.2 < sizeOf p := by
              obtain ⟨a, b⟩ := p
              simp
            exact hpx ▸ ih p.2 (by omega)
  exact fun j => aux (sizeOf j) j le_rfl

theorem forall2_snd_setKey (l m : List (String × Json)) (k : String) (v : Json)
    (hkeys : l.map Prod.fst = m.map Prod.fst)
    (hvals : List.Forall₂ KeyReorder (l.map Prod.snd) (m.map Prod.snd)) :
    (l.map (fun p => if p.1 = k then (k, v) else p)).map Prod.fst =
        (m.map (fun p => if p.1 = k then (k, v) else p)).map Prod.fst ∧
      List.Forall₂ KeyReorder
        ((l.map (fun p => if p.1 = k then (k, v) else p)).map Prod.snd)
        ((m.map (fun p => if p.1 = k then (k, v) else p)).map Prod.snd) := by
  induction l generalizing m with
  | nil =>
      cases m with
      | nil => simp
      | cons q s => simp at hkeys
  | cons p t ih =>
      cases m with
      | nil => simp at hkeys
      | cons q s =>
          obtain ⟨a, b⟩ := p
          obtain ⟨a2, b2⟩ := q
          simp only [List.map_cons, List.cons.injEq] at hkeys
          cases hvals with
          | cons hv hrest =>
              obtain ⟨hk, hks⟩ := hkeys
              subst hk
              have ihr := ih s hks hrest
              by_cases hak : a = k
              · simp only [List.map_cons, if_pos hak]
                constructor
                · simp [ihr.1]
                · exact List.Forall₂.cons (keyReorder_refl v) ihr.2
              · simp only [List.map_cons, if_neg hak]
                constructor
                · simp [ihr.1]
                · exact List.Forall₂.cons hv ihr.2

theorem keyReorder_setKey {l m2 : List (String × Json)} (k : String) (v : Json)
    (h : KeyReorder (.obj l) (.obj m2)) :
    KeyReorder (.obj (setKey l k v)) (.obj (setKey m2 k v)) := by
  cases h with
  | obj hkeys hvals hpm =>
      rename_i m
      have hmem : (k ∈ l.map Prod.fst) = (k ∈ m.map Prod.fst) := by
        rw [hkeys]
      have hmem2 : k ∈ m.map Prod.fst ↔ k ∈ m2.map Prod.fst :=
        (hpm.map Prod.fst).mem_iff
      by_cases hk : k ∈ l.map Prod.fst
      · have hkm : k ∈ m.map Prod.fst := by rw [← hmem]; exact hk
        have hkm2 : k ∈ m2.map Prod.fst := hmem2.mp hkm
        have hf := forall2_snd_setKey l m k v hkeys hvals
        apply KeyReorder.obj
            (m := m.map (fun p => if p.1 = k then (k, v) else p))
        · simp only [setKey, if_pos hk]
          exact hf.1
        · simp only [setKey, if_pos hk]
          exact hf.2
        · simp only [setKey, if_pos hkm2]
          exact hpm.map _
      · have hkm : k ∉ m.map Prod.fst := by rw [← hmem]; exact hk
        have hkm2 : k ∉ m2.map Prod.fst := fun hc => hkm (hmem2.mpr hc)
        apply KeyReorder.obj (m := m ++ [(k, v)])
        · simp only [setKey, if_neg hk]
          simp [hkeys]
        · simp only [setKey, if_neg hk]
          simp only [List.map_append]
          exact List.rel_append hvals
            (List.Forall₂.cons (keyReorder_refl v) List.Forall₂.nil)
        · simp only [setKey, if_neg hkm2]
          exact hpm.append_right _

theorem wfJson_setKey {l : List (String × Json)} (k : String) (v : Json)
    (hwf : WfJson (.obj l)) (hv : WfJson v) : WfJson (.obj (setKey l k v)) := by
  cases hwf with
  | obj hnd hwfp =>
      apply WfJson.obj (setKey_keys_nodup l k v hnd)
      intro p hp
      by_cases hk : k ∈ l.map Prod.fst
      · simp only [setKey, if_pos hk] at hp
        obtain ⟨q, hq, hqp⟩ := List.mem_map.mp hp
        by_cases hqk : q.1 = k
        · rw [if_pos hqk] at hqp
          rw [← hqp]
          exact hv
        · rw [if_neg hqk] at hqp
          exact hqp ▸ hwfp q hq
      · simp only [setKey, if_neg hk, List.mem_append] at hp
        cases hp with
        | inl hp => exact hwfp p hp
        | inr hp =>
            simp at hp
            rw [hp]
            exact hv

/-- Modelled from the spec: the external object-hash library used on line 212
is not part of this repository; per the spec, the digest is computed over the
canonical serialization of its argument with map keys sorted first. The digest
is modelled as the canonical form itself, which determines the serialization. -/
def objectHash (j : Json) : Json := canonV j

/-- The content hash computed on line 212: the hash of the schema document
spread into a fresh object together with the generator version stored under
the typeGeneratorVersion key. -/
def schemaHash (doc : List (String × Json)) (version : String) : Json :=
  objectHash (.obj (setKey doc ("typeGeneratorVersion") (.str version)))

/-- C2: computing the content hash twice on the same document and version
pair yields equal results, and two well-formed documents that are the same
mapping with map keys in different orders hash identically. -/
theorem schemaHash_deterministic_key_order_independent :
    ∀ (d1 d2 : List (String × Json)) (v : String),
      schemaHash d1 v = schemaHash d1 v ∧
      (WfJson (.obj d1) → KeyReorder (.obj d1) (.obj d2) →
        schemaHash d1 v = schemaHash d2 v) := by
  intro d1 d2 v
  refine ⟨rfl, fun hwf hkr => ?_⟩
  apply canonV_eq_of_keyReorder
  · exact wfJson_setKey _ _ hwf (WfJson.str v)
  · exact keyReorder_setKey _ _ hkr

/-- C9: two documents that differ only in the presence or value of a
top-level typeGeneratorVersion key hash identically, because the version
tag overwrites any such key before hashing. -/
theorem schemaHash_ignores_version_key :
    ∀ (d1 d2 : List (String × Json)) (v : String),
      (d1.map Prod.fst).Nodup → (d2.map Prod.fst).Nodup →
      eraseKey d1 ("typeGeneratorVersion") = eraseKey d2 ("typeGeneratorVersion") →
      schemaHash d1 v = schemaHash d2 v := by
  intro d1 d2 v hnd1 hnd2 heq
  have hperm : (setKey d1 ("typeGeneratorVersion") (.str v)).Perm
      (setKey d2 ("typeGeneratorVersion") (.str v)) := by
    refine (setKey_perm d1 _ _ hnd1).trans ?_
    rw [heq]
    exact (setKey_perm d2 _ _ hnd2).symm
  simp only [schemaHash, objectHash, canonV, Json.obj.injEq]
  apply sortByKey_eq_of_perm
  · rw [canonPairs_eq_map, canonPairs_eq_map]
    exact hperm.map _
  · rw [canonPairs_keys]
    exact setKey_keys_nodup _ _ _ hnd1

/-- The part of a schema node inspected by the transform callback: whether an
enum keyword is present, the declared type, and the title. -/
structure SchemaObject where
  hasEnum : Bool
  type : Option String
  title : Option String
deriving DecidableEq

/-- Splitting a character list on a separator character, the behavior of the
JS split with a one-character separator. -/
def splitOnChar (sep : Char) : List Char → List (List Char)
  | [] => [[]]
  | c :: rest =>
    if c = sep then [] :: splitOnChar sep rest
    else
      match splitOnChar sep rest with
      | [] => [[c]]
      | seg :: segs => (c :: seg) :: segs

/-- Final segment of a slash-separated reference path, as computed by
splitting the metadata path on slashes and taking the element at -1. -/
def lastPathSegment (path : String) : String :=
  String.mk ((splitOnChar ('/') path.data).getLastD [])

/-- The per-node transform callback of the translation engine (lines 141-160):
an empty string tells the engine to emit its default inline representation,
a nonempty result is substituted as a named reference. The accumulator models
the shared enumLookup object in insertion order; a candidate is recorded only
when its name is absent (first write wins). -/
def transform (schemaObject : SchemaObject) (mpath : String)
    (enumLookup : List (String × SchemaObject)) :
    String × List (String × SchemaObject) :=
  if schemaObject.hasEnum = false then (("") , enumLookup)
  else if schemaObject.type ≠ some ("string") then (("") , enumLookup)
  else
    match schemaObject.title with
    | none => (("") , enumLookup)
    | some enumName =>
      if enumName = ("") then (("") , enumLookup)
      else
        if lastPathSegment mpath ≠ enumName then (("") , enumLookup)
        else if (enumLookup.lookup enumName).isNone then
          (enumName, enumLookup ++ [(enumName, schemaObject)])
        else (enumName, enumLookup)

/-- Boolean form of the hoisting decision taken by the transform callback. -/
def hoistCondB (s : SchemaObject) (mpath : String) : Bool :=
  s.hasEnum && (s.type == some ("string")) &&
    (match s.title with
     | none => false
     | some t => (t != ("")) && (lastPathSegment mpath == t))

/-- The spec's hoisting condition: an enum keyword, a string declared type, a
nonempty title, and a title equal to the terminal path segment of the node's
reference location. -/
def hoistCond (s : SchemaObject) (mpath : String) : Prop :=
  s.hasEnum = true ∧ s.type = some ("string") ∧
    ∃ t, s.title = some t ∧ t ≠ ("") ∧ t = lastPathSegment mpath

theorem hoistCondB_iff (s : SchemaObject) (mpath : String) :
    hoistCondB s mpath = true ↔ hoistCond s mpath := by
  obtain ⟨he, ty, ti⟩ := s
  cases ti with
  | none => simp [hoistCondB, hoistCond]
  | some t0 =>
      simp only [hoistCondB, hoistCond, Bool.and_eq_true, beq_iff_eq, bne_iff_ne]
      constructor
      · rintro ⟨⟨h1, h2⟩, h3, h4⟩
        exact ⟨h1, h2, t0, rfl, h3, h4.symm⟩
      · rintro ⟨h1, h2, t2, ht2, h3, h4⟩
        simp only [Option.some.injEq] at ht2
        subst ht2
        exact ⟨⟨h1, h2⟩, h3, h4.symm⟩

theorem transform_eq (s : SchemaObject) (mpath : String)
    (lk : List (String × SchemaObject)) :
    transform s mpath lk =
      if hoistCondB s mpath then
        (s.title.getD (""),
          if (lk.lookup (s.title.getD (""))).isNone then
            lk ++ [(s.title.getD (""), s)]
          else lk)
      else (("") , lk) := by
  obtain ⟨he, ty, ti⟩ := s
  cases he with
  | false => simp [transform, hoistCondB]
  | true =>
      by_cases hty : ty = some ("string")
      · subst hty
        cases ti with
        | none => simp [transform, hoistCondB]
        | some t0 =>
            by_cases ht0 : t0 = ("")
            · subst ht0
              simp [transform, hoistCondB]
            · by_cases hseg : lastPathSegment mpath = t0
              · simp only [transform, hoistCondB, ht0, hseg]
                simp only [bne_iff_ne, ne_eq, ht0, not_false_eq_true, beq_self_eq_true,
                  Bool.and_self, Bool.and_true, if_true]
                simp [ht0]
                split <;> rfl
              · simp [transform, hoistCondB, ht0, hseg]
      · simp [transform, hoistCondB, hty]

/-- C1: a visited schema node is hoisted as an enum candidate, its name
returned as a reference token and the candidate recorded first-write-wins,
exactly when it has an enum keyword, a string declared type, a nonempty
title, and a title equal to the final path segment of its reference
location; in every other case the transform returns the empty string and
records nothing. -/
theorem transform_hoists_iff :
    ∀ (s : SchemaObject) (mpath : String) (lk : List (String × SchemaObject)),
      ((transform s mpath lk).1 ≠ ("") ↔ hoistCond s mpath) ∧
      (∀ t, s.title = some t → hoistCond s mpath →
        transform s mpath lk =
          (t, if (lk.lookup t).isNone then lk ++ [(t, s)] else lk)) ∧
      (¬ hoistCond s mpath → transform s mpath lk = (("") , lk)) := by
  intro s mpath lk
  rw [transform_eq]
  by_cases hb : hoistCondB s mpath = true
  · have hc := (hoistCondB_iff s mpath).mp hb
    obtain ⟨h1, h2, t2, ht2, hne, hlast⟩ := hc
    have hget : s.title.getD ("") = t2 := by rw [ht2]; rfl
    rw [if_pos hb]
    refine ⟨?_, fun t ht hc2 => ?_, fun h => absurd ((hoistCondB_iff s mpath).mp hb) h⟩
    · simp only [hget]
      constructor
      · intro _
        exact (hoistCondB_iff s mpath).mp hb
      · intro _
        exact hne
    · rw [ht] at ht2
      simp only [Option.some.injEq] at ht2
      subst ht2
      rw [hget]
  · rw [if_neg hb]
    refine ⟨?_, fun t ht hc2 => ?_, fun h => rfl⟩
    · simp only [ne_eq, not_true_eq_false, false_iff]
      intro hc
      exact hb ((hoistCondB_iff s mpath).mpr hc)
    · exact absurd ((hoistCondB_iff s mpath).mpr hc2) hb

/-- A top-level declaration of the generated artifact as seen when the file
is parsed back: an exported const with a value, an enum declaration, or any
other text. The hash extractor only looks at exported consts. -/
inductive TsDecl where
  | exportConst (name : String) (value : Json)
  | enumDecl (name : String)
  | other (text : String)

/-- Filter used on the parsed artifact body: an export of a const declaration
whose first declarator is named schemaHash. -/
def isSchemaHashConst : TsDecl → Bool
  | .exportConst n _ => n == ("schemaHash")
  | _ => false

def constValue : TsDecl → Option Json
  | .exportConst _ v => some v
  | .enumDecl _ => none
  | .other _ => none

/-- Value of the first exported schemaHash constant of the parsed artifact,
or null when the artifact holds none. -/
def extractSchemaHash (decls : List TsDecl) : Option Json :=
  match decls.filter isSchemaHashConst with
  | [] => none
  | d :: _ => constValue d

/-- The previously generated artifact on disk: absent, unparseable text, or
a parsed list of declarations. -/
inductive FileState where
  | missing
  | malformed
  | parsed (decls : List TsDecl)

/-- The hash extraction step of lines 165-173: the file is read synchronously
and parsed with no try block, so a missing file or unparseable text raises an
exception that the caller does not catch either; a parsed artifact yields the
first schemaHash constant value or null. -/
def getSchemaHash : FileState → Except String (Option Json)
  | .missing => .error ("ENOENT")
  | .malformed => .error ("parse failure")
  | .parsed decls => .ok (extractSchemaHash decls)

inductive RunOutcome where
  | crashed
  | skipped
  | txFailed
  | completed
deriving DecidableEq

/-- What a run did: its final state and the file writes it performed, in
order. -/
structure RunResult where
  outcome : RunOutcome
  writes : List (String × List TsDecl)

/-- The inputs of the post-resolution part of the pipeline (lines 210-243).
The translation engine and the artifact re-parser inside the re-export
builder are external collaborators, so their outcomes are parameters. -/
structure PipelineEnv where
  projectRoot : String
  typesDir : String
  doc : List (String × Json)
  version : String
  prevFile : FileState
  tx : List (String × Json) → Except String (List TsDecl)
  visited : List (SchemaObject × String)
  flatten : List TsDecl → Except String (List TsDecl)

def withPrev (env : PipelineEnv) (fs : FileState) : PipelineEnv :=
  ⟨env.projectRoot, env.typesDir, env.doc, env.version, fs, env.tx,
    env.visited, env.flatten⟩

/-- Simple model of joining path segments. -/
def pathJoin (a b : String) : String := a ++ ("/") ++ b

def openapiGeneratedPath (env : PipelineEnv) : String :=
  pathJoin (pathJoin env.projectRoot env.typesDir) ("openapi.ts")

def schemasPath (env : PipelineEnv) : String :=
  pathJoin (pathJoin env.projectRoot env.typesDir) ("schemas.ts")

/-- The enum accumulator after the translation engine has fed every visited
node through the transform callback. -/
def enumAccum (visited : List (SchemaObject × String)) :
    List (String × SchemaObject) :=
  visited.foldl (fun acc sv => (transform sv.1 sv.2 acc).2) []

/-- The primary artifact text: the engine output, then the exported hash
constant, then the hoisted enum declarations. -/
def typeFileOf (env : PipelineEnv) (decls : List TsDecl) : List TsDecl :=
  decls ++ [TsDecl.exportConst ("schemaHash") (schemaHash env.doc env.version)]
    ++ (enumAccum env.visited).map (fun p => TsDecl.enumDecl p.1)

/-- The pipeline after schema resolution: compute the hash, read the previous
hash (uncaught exceptions crash the run), short-circuit when unchanged,
translate (a failure is caught and exits before any write), write the primary
file, build the re-export file (an uncaught failure here crashes after the
first write), write it. -/
def runPipeline (env : PipelineEnv) : RunResult :=
  match getSchemaHash env.prevFile with
  | .error _ => ⟨.crashed, []⟩
  | .ok prev =>
    if prev = some (schemaHash env.doc env.version) then ⟨.skipped, []⟩
    else
      match env.tx env.doc with
      | .error _ => ⟨.txFailed, []⟩
      | .ok decls =>
        let typeFile := typeFileOf env decls
        match env.flatten typeFile with
        | .error _ => ⟨.crashed, [(openapiGeneratedPath env, typeFile)]⟩
        | .ok flat => ⟨.completed, [(openapiGeneratedPath env, typeFile),
            (schemasPath env, flat)]⟩

theorem extractSchemaHash_typeFileOf (env : PipelineEnv) (decls : List TsDecl)
    (hclean : ∀ d ∈ decls, isSchemaHashConst d = false) :
    extractSchemaHash (typeFileOf env decls) =
      some (schemaHash env.doc env.version) := by
  have h1 : decls.filter isSchemaHashConst = [] := by
    rw [List.filter_eq_nil_iff]
    intro d hd
    simp [hclean d hd]
  have h2 : ((enumAccum env.visited).map
      (fun p => TsDecl.enumDecl p.1)).filter isSchemaHashConst = [] := by
    rw [List.filter_eq_nil_iff]
    intro d hd
    obtain ⟨p, hp, hpd⟩ := List.mem_map.mp hd
    rw [← hpd]
    simp [isSchemaHashConst]
  simp only [extractSchemaHash, typeFileOf, List.filter_append, h1, h2]
  simp [isSchemaHashConst, constValue]

/-- C3: when the previous artifact holds a hash equal to the freshly
computed one the run terminates successfully with no writes, and a second
run against an unchanged document and version, reading the artifact the
first completed run wrote, writes nothing. -/
theorem runPipeline_short_circuit_idempotent (env : PipelineEnv) :
    (getSchemaHash env.prevFile =
        .ok (some (schemaHash env.doc env.version)) →
      runPipeline env = ⟨.skipped, []⟩) ∧
    (∀ p0 decls flat,
      getSchemaHash env.prevFile = .ok p0 →
      p0 ≠ some (schemaHash env.doc env.version) →
      env.tx env.doc = .ok decls →
      (∀ d ∈ decls, isSchemaHashConst d = false) →
      env.flatten (typeFileOf env decls) = .ok flat →
      runPipeline env =
        ⟨.completed, [(openapiGeneratedPath env, typeFileOf env decls),
          (schemasPath env, flat)]⟩ ∧
      runPipeline (withPrev env (.parsed (typeFileOf env decls))) =
        ⟨.skipped, []⟩) := by
  constructor
  · intro hprev
    simp [runPipeline, hprev]
  · intro p0 decls flat hprev hne htx hclean hfl
    constructor
    · simp [runPipeline, hprev, hne, htx, hfl]
    · have hext : getSchemaHash (.parsed (typeFileOf env decls)) =
          .ok (some (schemaHash env.doc env.version)) := by
        simp [getSchemaHash, extractSchemaHash_typeFileOf env decls hclean]
      simp [runPipeline, withPrev, hext]

/-- A pipeline input whose previous artifact file does not exist, as on the
first run in a fresh checkout. -/
def envMissingPrev : PipelineEnv :=
  ⟨("./src/"), ("types/"), [], ("1.0.0"), .missing,
    fun _ => .ok [], [], fun _ => .ok []⟩

/-- C4: evaluation at the failing input: a missing or unparseable previous
artifact makes hash extraction raise instead of yielding null, and the
pipeline crashes before any generation, while an artifact without the
constant does yield null. -/
theorem getSchemaHash_missing_crashes :
    getSchemaHash .missing = .error ("ENOENT") ∧
    getSchemaHash .malformed = .error ("parse failure") ∧
    extractSchemaHash [.other ("interface components")] = none ∧
    runPipeline envMissingPrev = ⟨.crashed, []⟩ :=
  ⟨rfl, rfl, rfl, rfl⟩

/-- A pipeline input on which building the re-export file fails after the
primary artifact was already written. -/
def envFlattenFails : PipelineEnv :=
  ⟨("./src/"), ("types/"), [], ("1.0.0"), .parsed [],
    fun _ => .ok [], [], fun _ => .error ("cannot parse artifact")⟩

/-- C8 counterexample: a run whose re-export construction fails crashes
after the primary declaration file was already written, leaving exactly
one of the two output files on disk. -/
theorem runPipeline_partial_write_counterexample :
    (runPipeline envFlattenFails).outcome = .crashed ∧
    (runPipeline envFlattenFails).writes =
      [(openapiGeneratedPath envFlattenFails, typeFileOf envFlattenFails [])] ∧
    (runPipeline envFlattenFails).writes.length = 1 :=
  ⟨rfl, rfl, rfl⟩

/-- C8 amended: a translation failure leaves no files written, while a
failure while building the flattened module happens after the primary file
was written, leaving the primary file without the re-export file. -/
theorem runPipeline_fatal_write_behavior_amended :
    ∀ (env : PipelineEnv) (p0 : Option Json) (decls : List TsDecl),
      getSchemaHash env.prevFile = .ok p0 →
      p0 ≠ some (schemaHash env.doc env.version) →
      ((∀ e, env.tx env.doc = .error e → runPipeline env = ⟨.txFailed, []⟩) ∧
        (env.tx env.doc = .ok decls →
          ∀ e, env.flatten (typeFileOf env decls) = .error e →
            runPipeline env =
              ⟨.crashed, [(openapiGeneratedPath env, typeFileOf env decls)]⟩)) := by
  intro env p0 decls hprev hne
  constructor
  · intro e htx
    simp [runPipeline, hprev, hne, htx]
  · intro htx e hfl
    simp [runPipeline, hprev, hne, htx, hfl]

/-- A token produced by the argument parser: its kind, the option name when
it is an option token, and its position on the command line. -/
structure ArgToken where
  kind : String
  name : String
  index : Nat
deriving DecidableEq

def isOptionToken (t : ArgToken) : Bool := t.kind == ("option")

/-- The JS startsWith test on the option name. -/
def nameStartsWithOas (t : ArgToken) : Bool :=
  ("oas").data.isPrefixOf t.name.data

/-- The source try-order of lines 70-76: option tokens whose name starts with
oas, sorted by command-line position, mapped to their names. -/
def importOrder (tokens : List ArgToken) : List String :=
  (sortByKey ArgToken.index
    ((tokens.filter isOptionToken).filter nameStartsWithOas)).map
      ArgToken.name

/-- The source loading loop of lines 82-117: attempt each configured source
key in order; any exception moves on to the next key; the first parseable
document is returned; exhausting every key logs a diagnostic and ends the
run. The outcome of attempting one source (read or download plus JSON parse)
is the external parameter src. -/
def loadOpenAPISchema (src : String → Except String Json) :
    List String → Except String Json
  | [] => .error ("Could not load OpenAPI file")
  | key :: rest =>
    match src key with
    | .ok doc => .ok doc
    | .error _ => loadOpenAPISchema src rest

theorem loadOpenAPISchema_ok_iff (src : String → Except String Json)
    (order : List String) (j : Json) :
    loadOpenAPISchema src order = .ok j ↔
      ∃ pre key post, order = pre ++ key :: post ∧
        (∀ k ∈ pre, ∃ e, src k = .error e) ∧ src key = .ok j := by
  induction order with
  | nil =>
      simp only [loadOpenAPISchema]
      constructor
      · intro h
        exact absurd h (by simp)
      · rintro ⟨pre, key, post, h, _, _⟩
        exact absurd h (by simp)
  | cons key rest ih =>
      simp only [loadOpenAPISchema]
      cases hsrc : src key with
      | ok doc =>
          constructor
          · intro h
            simp only [Except.ok.injEq] at h
            exact ⟨[], key, rest, rfl, by simp, by rw [hsrc, h]⟩
          · rintro ⟨pre, key2, post, horder, hpre, hkey⟩
            cases pre with
            | nil =>
                simp only [List.nil_append, List.cons.injEq] at horder
                obtain ⟨h1, h2⟩ := horder
                subst h1
                rw [hsrc] at hkey
                simp only [Except.ok.injEq] at hkey
                simp [hkey]
            | cons p pt =>
                simp only [List.cons_append, List.cons.injEq] at horder
                obtain ⟨h1, h2⟩ := horder
                subst h1
                obtain ⟨e, he⟩ := hpre key (by simp)
                rw [hsrc] at he
                exact absurd he (by simp)
      | error e =>
          rw [ih]
          constructor
          · rintro ⟨pre, key2, post, horder, hpre, hkey⟩
            refine ⟨key :: pre, key2, post, by rw [horder]; rfl, ?_, hkey⟩
            intro k hk
            rcases List.mem_cons.mp hk with hk | hk
            · exact ⟨e, by rw [hk, hsrc]⟩
            · exact hpre k hk
          · rintro ⟨pre, key2, post, horder, hpre, hkey⟩
            cases pre with
            | nil =>
                simp only [List.nil_append, List.cons.injEq] at horder
                obtain ⟨h1, h2⟩ := horder
                subst h1
                rw [hsrc] at hkey
                exact absurd hkey (by simp)
            | cons p pt =>
                simp only [List.cons_append, List.cons.injEq] at horder
                obtain ⟨h1, h2⟩ := horder
                refine ⟨pt, key2, post, h2, ?_, hkey⟩
                intro k hk
                exact hpre k (by simp [hk])

theorem loadOpenAPISchema_error_iff (src : String → Except String Json)
    (order : List String) :
    (∃ e, loadOpenAPISchema src order = .error e) ↔
      ∀ k ∈ order, ∃ e, src k = .error e := by
  induction order with
  | nil => simp [loadOpenAPISchema]
  | cons key rest ih =>
      simp only [loadOpenAPISchema]
      cases hsrc : src key with
      | ok doc =>
          constructor
          · rintro ⟨e, he⟩
            exact absurd he (by simp)
          · intro h
            obtain ⟨e, he⟩ := h key (by simp)
            rw [hsrc] at he
            exact absurd he (by simp)
      | error e =>
          rw [ih]
          constructor
          · intro h k hk
            rcases List.mem_cons.mp hk with hk | hk
            · exact ⟨e, by rw [hk, hsrc]⟩
            · exact h k hk
          · intro h k hk
            exact h k (by simp [hk])

theorem importOrder_eq_of_sorted (tokens : List ArgToken)
    (hsorted : tokens.Pairwise (fun a b => a.index < b.index)) :
    importOrder tokens =
      (tokens.filter
        (fun t => isOptionToken t && nameStartsWithOas t)).map
          ArgToken.name := by
  have hfil : (tokens.filter isOptionToken).filter nameStartsWithOas =
      tokens.filter (fun t => isOptionToken t && nameStartsWithOas t) := by
    rw [List.filter_filter]
    apply List.filter_congr
    intro a _
    exact Bool.and_comm _ _
  have hsf : ((tokens.filter isOptionToken).filter
      nameStartsWithOas).Pairwise
      (fun a b => a.index < b.index) :=
    (hsorted.filter _).filter _
  rw [importOrder, sortByKey_eq_self ArgToken.index _ hsf, hfil]

/-- C5: the configured sources are attempted in the positional order the
oas flags were written, each failure advances to the next, the first
source yielding a parseable document wins, and exhausting all sources ends
the run with a diagnostic. -/
theorem loadOpenAPISchema_positional_fallback :
    ∀ (tokens : List ArgToken) (src : String → Except String Json),
      tokens.Pairwise (fun a b => a.index < b.index) →
      (importOrder tokens =
        (tokens.filter
          (fun t => isOptionToken t && nameStartsWithOas t)).map
            ArgToken.name) ∧
      (∀ j, loadOpenAPISchema src (importOrder tokens) = .ok j ↔
        ∃ pre key post, importOrder tokens = pre ++ key :: post ∧
          (∀ k ∈ pre, ∃ e, src k = .error e) ∧ src key = .ok j) ∧
      ((∃ e, loadOpenAPISchema src (importOrder tokens) = .error e) ↔
        ∀ k ∈ importOrder tokens, ∃ e, src k = .error e) := by
  intro tokens src hsorted
  exact ⟨importOrder_eq_of_sorted tokens hsorted,
    fun j => loadOpenAPISchema_ok_iff src (importOrder tokens) j,
    loadOpenAPISchema_error_iff src (importOrder tokens)⟩

/-- A property key of the schemas interface in the parsed artifact: an
identifier key, or a string-literal key used when the schema name is not a
valid identifier. -/
inductive PropKey where
  | ident (name : String)
  | strLit (value : String)
deriving DecidableEq

/-- The actual schema name behind a key. -/
def schemaKeyStr : PropKey → String
  | .ident n => n
  | .strLit v => v

/-- The name field of a key node: a string-literal key has none. -/
def keyNameOpt : PropKey → Option String
  | .ident n => some n
  | .strLit _ => none

/-- JS reading of the name field where an absent field is the undefined
value, which both the in operator and a template literal coerce to the
string undefined. -/
def keyNameJs (k : PropKey) : String :=
  (keyNameOpt k).getD ("undefined")

def keyIsIdent : PropKey → Bool
  | .ident _ => true
  | .strLit _ => false

/-- One exported binding of the re-export file: a name inside the
consolidated enum re-export clause, or an individual declaration binding a
local name to a deep schema reference with the given keyword. -/
inductive ReExport where
  | enumReExport (name : String)
  | schemaExport (keyword : String) (localName : String) (target : String)
deriving DecidableEq

/-- The exported bindings of the re-export file built on lines 183-208: the
consolidated enum clause re-exports every recorded enum name, then every
schemas property whose JS name field is not a recorded enum name is emitted
individually, with the const keyword reserved for identifier keys recorded
as enums (unreachable after the filter). -/
def generateReExporterFile (schemaProps : List PropKey)
    (enumNames : List String) : List ReExport :=
  enumNames.map ReExport.enumReExport ++
    (schemaProps.filter (fun k => ¬ (keyNameJs k) ∈ enumNames)).map
      (fun k => ReExport.schemaExport
        (if keyIsIdent k && keyNameJs k ∈ enumNames then ("const")
          else ("type"))
        (keyNameJs k) (keyNameJs k))

/-- Does a binding of the re-export file declare the given name? -/
def declaresName (n : String) : ReExport → Bool
  | .enumReExport m => m == n
  | .schemaExport _ localName _ => localName == n

theorem countDecl_enumPart (enums : List String) (n : String)
    (hen : enums.Nodup) :
    List.countP (declaresName n) (enums.map ReExport.enumReExport) =
      if n ∈ enums then 1 else 0 := by
  rw [List.countP_map]
  have h1 : List.countP (declaresName n ∘ ReExport.enumReExport) enums =
      List.count n enums := by
    apply List.countP_congr
    intro m _
    simp [declaresName, List.count]
  rw [h1]
  by_cases hn : n ∈ enums
  · rw [if_pos hn, List.count_eq_one_of_mem hen hn]
  · rw [if_neg hn, List.count_eq_zero.mpr hn]

/-- C6 amended: every schema name whose schemas key is an identifier key
and is not the literal name undefined is declared exactly once in the
flattened output, either as one individual type re-export or inside the
consolidated enum clause, also in artifacts that contain string-literal
keys; a string-literal key is declared under the name undefined instead,
so an identifier key literally named undefined can be declared more than
once. -/
theorem reExporter_schema_names_once_amended (props : List PropKey)
    (enums : List String)
    (hnd : (props.map schemaKeyStr).Nodup) (hen : enums.Nodup) :
    ∀ k ∈ props, keyIsIdent k = true → schemaKeyStr k ≠ ("undefined") →
      ((generateReExporterFile props enums).filter
        (declaresName (schemaKeyStr k))).length = 1 := by
  intro k hk hkid hkund
  have hkeyjs : keyNameJs k = schemaKeyStr k := by
    cases k with
    | ident m => rfl
    | strLit v => simp [keyIsIdent] at hkid
  have huniq : ∀ k2 ∈ props,
      ((keyNameJs k2 == schemaKeyStr k) = true ↔ k2 = k) := by
    intro k2 hk2
    constructor
    · intro hbeq
      have heq : keyNameJs k2 = schemaKeyStr k := eq_of_beq hbeq
      cases k2 with
      | ident m2 =>
          have heq2 : schemaKeyStr (.ident m2) = schemaKeyStr k := heq
          exact List.inj_on_of_nodup_map hnd hk2 hk heq2
      | strLit v =>
          have heq2 : schemaKeyStr k = ("undefined") := heq.symm
          exact absurd heq2 hkund
    · intro h
      subst h
      rw [hkeyjs]
      simp
  rw [← List.countP_eq_length_filter, generateReExporterFile,
    List.countP_append, countDecl_enumPart enums _ hen, List.countP_map]
  have hemit : ∀ k2 ∈ props.filter (fun k2 => ¬ (keyNameJs k2) ∈ enums),
      ((declaresName (schemaKeyStr k) ∘ fun k2 =>
        ReExport.schemaExport
          (if keyIsIdent k2 && keyNameJs k2 ∈ enums then ("const") else ("type"))
          (keyNameJs k2) (keyNameJs k2)) k2 = true ↔
        (keyNameJs k2 == schemaKeyStr k) = true) := by
    intro k2 _
    simp [declaresName]
  rw [List.countP_congr hemit]
  by_cases hn : schemaKeyStr k ∈ enums
  · rw [if_pos hn]
    have hzero : List.countP (fun k2 => keyNameJs k2 == schemaKeyStr k)
        (props.filter (fun k2 => ¬ (keyNameJs k2) ∈ enums)) = 0 := by
      rw [List.countP_eq_zero]
      intro k2 hk2
      have hmem := List.of_mem_filter hk2
      simp only [decide_eq_true_eq] at hmem
      intro hbeq
      exact hmem (by rw [eq_of_beq hbeq]; exact hn)
    rw [hzero]
  · rw [if_neg hn]
    have hprops : List.countP (fun k2 => keyNameJs k2 == schemaKeyStr k)
        props = 1 := by
      have hc : List.countP (fun k2 => keyNameJs k2 == schemaKeyStr k) props =
          List.count k props := by
        rw [List.count]
        apply List.countP_congr
        intro x hx
        rw [huniq x hx]
        simp
      rw [hc]
      exact List.count_eq_one_of_mem (List.Nodup.of_map _ hnd) hk
    have hle : List.countP (fun k2 => keyNameJs k2 == schemaKeyStr k)
        (props.filter (fun k2 => ¬ (keyNameJs k2) ∈ enums)) ≤
        List.countP (fun k2 => keyNameJs k2 == schemaKeyStr k) props := by
      rw [List.countP_filter]
      apply List.countP_mono_left
      intro x hx hpq
      simp only [Bool.and_eq_true] at hpq
      exact hpq.1
    have hpos : 0 < List.countP (fun k2 => keyNameJs k2 == schemaKeyStr k)
        (props.filter (fun k2 => ¬ (keyNameJs k2) ∈ enums)) := by
      rw [List.countP_pos_iff]
      refine ⟨k, List.mem_filter.mpr ⟨hk, ?_⟩, by simp [hkeyjs]⟩
      simp only [decide_eq_true_eq]
      rw [hkeyjs]
      exact hn
    omega

/-- C6 counterexample: a schemas key that is not a valid identifier is a
string-literal key whose name field is undefined, so its re-export is
emitted under the name undefined and the original schema name appears in
no declaration of the flattened output. -/
theorem reExporter_string_literal_key_lost :
    ((generateReExporterFile [.strLit ("Foo-Bar")] []).filter
      (declaresName ("Foo-Bar"))).length = 0 ∧
    generateReExporterFile [.strLit ("Foo-Bar")] [] =
      [.schemaExport ("type") ("undefined") ("undefined")] := by
  constructor
  · decide
  · decide

/-- C10: every individually emitted per-schema declaration of the
re-export file uses the type keyword; the const branch is unreachable
because enum names are filtered out before the mapping. -/
theorem reExporter_schema_exports_always_type (props : List PropKey) (enums : List String) :
    ((generateReExporterFile props enums).all
      (fun r => match r with
        | .schemaExport keyword _ _ => keyword == ("type")
        | .enumReExport _ => true)) = true := by
  rw [generateReExporterFile, List.all_append]
  apply Bool.and_eq_true_iff.mpr
  constructor
  · rw [List.all_eq_true]
    intro r hr
    obtain ⟨m, _, hm⟩ := List.mem_map.mp hr
    rw [← hm]
  · rw [List.all_eq_true]
    intro r hr
    obtain ⟨k2, hk2, hm⟩ := List.mem_map.mp hr
    have hfil := List.of_mem_filter hk2
    simp only [decide_eq_true_eq] at hfil
    rw [← hm]
    have : (keyIsIdent k2 && keyNameJs k2 ∈ enums) = false := by
      apply Bool.and_eq_false_iff.mpr
      right
      simpa using hfil
    rw [this]
    simp

/-- A word character of the regex character class: letter, digit or
underscore. -/
def isWordChar (c : Char) : Bool :=
  (('a') ≤ c && c ≤ ('z')) || (('A') ≤ c && c ≤ ('Z')) ||
    (('0') ≤ c && c ≤ ('9')) || c == ('_')

/-- An ASCII letter, the character class of the anchored alternative. -/
def isAsciiLetter (c : Char) : Bool :=
  (('a') ≤ c && c ≤ ('z')) || (('A') ≤ c && c ≤ ('Z'))

/-- After position zero the anchored alternative can never match again, so
the remaining global replacement removes exactly the non-word characters. -/
def stripNonWord (cs : List Char) : List Char := cs.filter isWordChar

/-- The global replacement of the schema-name cleaning regex: the first
alternative, a single character outside the word class, is tried first; only
when the first character is a word character can the anchored second
alternative match, removing the maximal leading run of non-letters; the scan
then continues past position zero where only the first alternative can
apply. -/
def cleanChars : List Char → List Char
  | [] => []
  | c :: rest =>
    if isWordChar c = false then stripNonWord rest
    else if isAsciiLetter c = false then
      stripNonWord ((c :: rest).dropWhile (fun x => isAsciiLetter x = false))
    else c :: stripNonWord rest

/-- The local-identifier cleaning applied to a schema name before emitting
its re-export declaration. -/
def cleanSchemaName (s : String) : String :=
  String.mk (cleanChars s.data)

/-- The cleaning rule as the spec words it: remove every character that is
illegal in an identifier, and remove any leading run of characters that are
not letters. -/
def specCleanName (s : String) : String :=
  String.mk ((s.data.filter isWordChar).dropWhile
    (fun x => isAsciiLetter x = false))

/-- The re-export file of the later revision (lines 409-435): same clause
structure, but the filter consults the name field, a string-literal key falls
back to its value, and the emitted local name is cleaned. -/
def generateReExporterFileV2 (schemaProps : List PropKey)
    (enumNames : List String) : List ReExport :=
  enumNames.map ReExport.enumReExport ++
    (schemaProps.filter (fun k =>
      match keyNameOpt k with
      | some n => ¬ n ∈ enumNames
      | none => true)).map
      (fun k => ReExport.schemaExport
        (if keyIsIdent k && schemaKeyStr k ∈ enumNames then ("const")
          else ("type"))
        (cleanSchemaName (schemaKeyStr k)) (schemaKeyStr k))

theorem isWordChar_of_letter {c : Char} (h : isAsciiLetter c = true) :
    isWordChar c = true := by
  simp only [isAsciiLetter, Bool.or_eq_true, Bool.and_eq_true] at h
  simp only [isWordChar, Bool.or_eq_true, Bool.and_eq_true]
  tauto

theorem filter_dropWhile_comm : ∀ l : List Char,
    (l.dropWhile (fun x => isAsciiLetter x = false)).filter isWordChar =
      (l.filter isWordChar).dropWhile (fun x => isAsciiLetter x = false) := by
  intro l
  induction l with
  | nil => rfl
  | cons x t ih =>
      by_cases hx : isAsciiLetter x = true
      · have hw := isWordChar_of_letter hx
        simp [List.dropWhile_cons, List.filter_cons, hx, hw]
      · simp only [Bool.not_eq_true] at hx
        by_cases hw : isWordChar x = true
        · simp [List.dropWhile_cons, List.filter_cons, hx, hw]
          simpa using ih
        · simp only [Bool.not_eq_true] at hw
          simp [List.dropWhile_cons, List.filter_cons, hx, hw]
          simpa using ih

theorem strip_dropWhile_comm (l : List Char) :
    stripNonWord (l.dropWhile (fun x => isAsciiLetter x = false)) =
      (stripNonWord l).dropWhile (fun x => isAsciiLetter x = false) :=
  filter_dropWhile_comm l

def headIsWord : List Char → Bool
  | [] => true
  | c :: _ => isWordChar c

theorem stripNonWord_all (l : List Char) :
    (stripNonWord l).all isWordChar = true := by
  rw [List.all_eq_true]
  intro x hx
  exact List.of_mem_filter hx

theorem dropWhile_head_false (p : Char → Bool) :
    ∀ l : List Char, l.dropWhile p = [] ∨
      ∃ c t, l.dropWhile p = c :: t ∧ p c = false := by
  intro l
  induction l with
  | nil => exact Or.inl rfl
  | cons x t ih =>
      by_cases hx : p x = true
      · rw [List.dropWhile_cons]
        simp only [hx, if_pos]
        simpa using ih
      · simp only [Bool.not_eq_true] at hx
        rw [List.dropWhile_cons]
        simp only [hx]
        exact Or.inr ⟨x, t, by simp, hx⟩

theorem cleanChars_spec_of_headWord :
    ∀ cs : List Char, headIsWord cs = true →
      cleanChars cs = (cs.filter isWordChar).dropWhile
        (fun x => isAsciiLetter x = false) := by
  intro cs hhead
  cases cs with
  | nil => rfl
  | cons c rest =>
      have hw : isWordChar c = true := hhead
      by_cases hl : isAsciiLetter c = true
      · simp [cleanChars, hw, hl, stripNonWord, List.filter_cons,
          List.dropWhile_cons]
      · simp only [Bool.not_eq_true] at hl
        simp [cleanChars, hw, hl, stripNonWord, List.filter_cons,
          List.dropWhile_cons]
        simpa using filter_dropWhile_comm rest

/-- C7 amended: the cleaning removes every illegal character, but the
leading run of non-letters is removed only when the first character of the
name is a word character; under that condition the result is empty or
begins with a letter, and the flattener emits exactly this cleaning as the
local name. -/
theorem cleanSchemaName_amended :
    ∀ s : String,
      ((cleanSchemaName s).data.all isWordChar = true) ∧
      (headIsWord s.data = true → cleanSchemaName s = specCleanName s) ∧
      (headIsWord s.data = false →
        cleanSchemaName s = String.mk (s.data.filter isWordChar)) ∧
      (headIsWord s.data = true →
        (cleanSchemaName s).data = [] ∨
          isAsciiLetter ((cleanSchemaName s).data.headD ('a')) = true) ∧
      (∀ props enums kw localName target,
        ReExport.schemaExport kw localName target ∈
            generateReExporterFileV2 props enums →
          localName = cleanSchemaName target) := by
  intro s
  obtain ⟨data⟩ := s
  refine ⟨?_, ?_, ?_, ?_, ?_⟩
  · cases data with
    | nil => rfl
    | cons c rest =>
        by_cases hw : isWordChar c = true
        · by_cases hl : isAsciiLetter c = true
          · simp [cleanSchemaName, cleanChars, hw, hl, stripNonWord_all rest]
          · simp only [Bool.not_eq_true] at hl
            simp [cleanSchemaName, cleanChars, hw, hl, stripNonWord_all]
        · simp only [Bool.not_eq_true] at hw
          simp [cleanSchemaName, cleanChars, hw, stripNonWord_all]
  · intro hhead
    simp only [cleanSchemaName, specCleanName]
    rw [cleanChars_spec_of_headWord data hhead]
  · intro hhead
    cases data with
    | nil => simp [headIsWord] at hhead
    | cons c rest =>
        simp only [headIsWord] at hhead
        simp [cleanSchemaName, cleanChars, hhead, stripNonWord,
          List.filter_cons]
  · intro hhead
    simp only [cleanSchemaName]
    rw [cleanChars_spec_of_headWord data hhead]
    rcases dropWhile_head_false (fun x => isAsciiLetter x = false)
        (data.filter isWordChar) with h | ⟨c, t, hct, hc⟩
    · left
      rw [h]
    · right
      rw [hct]
      simp only [List.headD_cons]
      simp only [decide_eq_false_iff_not, Bool.not_eq_false] at hc
      exact hc
  · intro props enums kw localName target hmem
    simp only [generateReExporterFileV2, List.mem_append] at hmem
    rcases hmem with hmem | hmem
    · obtain ⟨m, _, hm⟩ := List.mem_map.mp hmem
      exact absurd hm (by simp)
    · obtain ⟨k2, _, hm⟩ := List.mem_map.mp hmem
      simp only [ReExport.schemaExport.injEq] at hm
      rw [← hm.2.1, ← hm.2.2]

/-- C7 counterexample: the name -1abc cleans to 1abc, not abc: the leading
run of non-letters is not removed when the name starts with an illegal
character, and the emitted local name does not begin with a letter. -/
theorem cleanSchemaName_counterexample :
    generateReExporterFileV2 [.strLit ("-1abc")] [] =
      [.schemaExport ("type") ("1abc") ("-1abc")] ∧
    cleanSchemaName ("-1abc") = ("1abc") ∧
    specCleanName ("-1abc") = ("abc") ∧
    cleanSchemaName ("-1abc") ≠ specCleanName ("-1abc") ∧
    isAsciiLetter ((cleanSchemaName ("-1abc")).data.headD ('a')) = false := by
  refine ⟨by decide, by decide, by decide, by decide, by decide⟩

/-- Witness for C1 at a concrete hoisted node. -/
theorem transform_hoists_iff_witness :
    transform ⟨true, some ("string"), some ("Color")⟩
        ("#/components/schemas/Color") [] =
      (("Color"),
        [(("Color"), ⟨true, some ("string"), some ("Color")⟩)]) := by
  have h := (transform_hoists_iff ⟨true, some ("string"), some ("Color")⟩
      ("#/components/schemas/Color") []).2.1 ("Color") rfl
      ⟨rfl, rfl, ("Color"), rfl, by decide, by decide⟩
  simpa using h

def c2DocA : List (String × Json) :=
  [(("b"), .num 2), (("a"), .obj [(("y"), .num 1), (("x"), .null)])]

def c2DocB : List (String × Json) :=
  [(("a"), .obj [(("x"), .null), (("y"), .num 1)]), (("b"), .num 2)]

/-- Witness for C2 at two concrete documents with reordered keys at both
levels. -/
theorem schemaHash_key_order_independent_witness :
    schemaHash c2DocA ("1.0.0") = schemaHash c2DocB ("1.0.0") := by
  have hwf : WfJson (.obj c2DocA) := by
    apply WfJson.obj
    · decide
    · intro p hp
      simp only [c2DocA, List.mem_cons, List.not_mem_nil, or_false] at hp
      rcases hp with rfl | rfl
      · exact WfJson.num 2
      · apply WfJson.obj
        · decide
        · intro q hq
          simp only [List.mem_cons, List.not_mem_nil, or_false] at hq
          rcases hq with rfl | rfl
          · exact WfJson.num 1
          · exact WfJson.null
  have hinner : KeyReorder (.obj [(("y"), .num 1), (("x"), .null)])
      (.obj [(("x"), .null), (("y"), .num 1)]) := by
    apply KeyReorder.obj (m := [(("y"), Json.num 1), (("x"), Json.null)]) rfl
    · exact List.Forall₂.cons (KeyReorder.num 1)
        (List.Forall₂.cons KeyReorder.null List.Forall₂.nil)
    · exact List.Perm.swap (("x"), Json.null) (("y"), Json.num 1) []
  have hkr : KeyReorder (.obj c2DocA) (.obj c2DocB) := by
    show KeyReorder
      (.obj [(("b"), Json.num 2),
        (("a"), Json.obj [(("y"), Json.num 1), (("x"), Json.null)])])
      (.obj [(("a"), Json.obj [(("x"), Json.null), (("y"), Json.num 1)]),
        (("b"), Json.num 2)])
    apply KeyReorder.obj
        (m := [(("b"), Json.num 2),
          (("a"), Json.obj [(("x"), Json.null), (("y"), Json.num 1)])])
    · rfl
    · exact List.Forall₂.cons (KeyReorder.num 2)
        (List.Forall₂.cons hinner List.Forall₂.nil)
    · exact List.Perm.swap
        (("a"), Json.obj [(("x"), Json.null), (("y"), Json.num 1)])
        (("b"), Json.num 2) []
  exact (schemaHash_deterministic_key_order_independent c2DocA c2DocB
    ("1.0.0")).2 hwf hkr

def c3DemoEnv : PipelineEnv :=
  ⟨("./src/"), ("types/"), [(("openapi"), .str ("3.1.0"))], ("1.0.0"),
    .parsed [], fun _ => .ok [.other ("components")], [],
    fun _ => .ok [.other ("exports")]⟩

/-- Witness for C3: the second run over the artifact the first run wrote
skips and writes nothing. -/
theorem runPipeline_short_circuit_idempotent_witness :
    runPipeline (withPrev c3DemoEnv
      (.parsed (typeFileOf c3DemoEnv [.other ("components")]))) =
      ⟨.skipped, []⟩ := by
  have h := (runPipeline_short_circuit_idempotent c3DemoEnv).2 none
      [.other ("components")] [.other ("exports")] rfl (by simp) rfl
      (by
        intro d hd
        simp only [List.mem_singleton] at hd
        rw [hd]
        rfl)
      rfl
  exact h.2

def c5DemoTokens : List ArgToken :=
  [⟨("option"), ("oas-path"), 0⟩, ⟨("positional"), ("x"), 1⟩,
    ⟨("option"), ("oas-command"), 2⟩]

def c5DemoSrc : String → Except String Json :=
  fun k => if k = ("oas-path") then .error ("ENOENT") else .ok .null

/-- Witness for C5: the path flag written first fails, the command flag
written second succeeds, and the try-order is the written order. -/
theorem loadOpenAPISchema_positional_fallback_witness :
    importOrder c5DemoTokens = [("oas-path"), ("oas-command")] ∧
    loadOpenAPISchema c5DemoSrc (importOrder c5DemoTokens) = .ok .null := by
  have h := loadOpenAPISchema_positional_fallback c5DemoTokens c5DemoSrc
      (by decide)
  have h1 : importOrder c5DemoTokens = [("oas-path"), ("oas-command")] := by
    rw [h.1]
    decide
  refine ⟨h1, ?_⟩
  apply (h.2.1 .null).mpr
  refine ⟨[("oas-path")], ("oas-command"), [], by rw [h1]; rfl, ?_, rfl⟩
  intro k hk
  simp only [List.mem_singleton] at hk
  subst hk
  exact ⟨("ENOENT"), rfl⟩

/-- Witness for C6 amended at a mixed artifact holding one plain schema,
one hoisted enum, and one string-literal key. -/
theorem reExporter_schema_names_once_amended_witness :
    ((generateReExporterFile
      [.ident ("Pet"), .ident ("Color"), .strLit ("Foo-Bar")]
      [("Color")]).filter (declaresName ("Pet"))).length = 1 ∧
    ((generateReExporterFile
      [.ident ("Pet"), .ident ("Color"), .strLit ("Foo-Bar")]
      [("Color")]).filter (declaresName ("Color"))).length = 1 := by
  have h := reExporter_schema_names_once_amended
      [.ident ("Pet"), .ident ("Color"), .strLit ("Foo-Bar")] [("Color")]
      (by decide) (by decide)
  exact ⟨h (.ident ("Pet")) (by decide) (by decide) (by decide),
    h (.ident ("Color")) (by decide) (by decide) (by decide)⟩

/-- Witness for C7 amended: a name that begins with a word character is
cleaned exactly as the spec words it. -/
theorem cleanSchemaName_amended_witness :
    headIsWord ("x-1abc").data = true ∧
    cleanSchemaName ("x-1abc") = specCleanName ("x-1abc") :=
  ⟨by decide, (cleanSchemaName_amended ("x-1abc")).2.1 (by decide)⟩

def c8TxFailEnv : PipelineEnv :=
  ⟨("./src/"), ("types/"), [], ("1.0.0"), .parsed [],
    fun _ => .error ("bad schema"), [], fun _ => .ok []⟩

/-- Witness for C8 amended: a failed translation writes nothing, a failed
flattening leaves exactly the primary file. -/
theorem runPipeline_fatal_write_behavior_amended_witness :
    runPipeline c8TxFailEnv = ⟨.txFailed, []⟩ ∧
    runPipeline envFlattenFails =
      ⟨.crashed, [(openapiGeneratedPath envFlattenFails,
        typeFileOf envFlattenFails [])]⟩ := by
  constructor
  · exact (runPipeline_fatal_write_behavior_amended c8TxFailEnv none []
      rfl (by simp)).1 ("bad schema") rfl
  · exact (runPipeline_fatal_write_behavior_amended envFlattenFails none []
      rfl (by simp)).2 rfl ("cannot parse artifact") rfl

/-- Witness for C9 at a document carrying a stale version tag. -/
theorem schemaHash_ignores_version_key_witness :
    schemaHash [(("a"), .num 1), (("typeGeneratorVersion"), .str ("0.9"))]
        ("1.0.0") =
      schemaHash [(("a"), .num 1)] ("1.0.0") := by
  apply schemaHash_ignores_version_key
  · decide
  · decide
  · rfl
